import Mathlib

/-!
Verification development for the plexo-payments service.

The Rust sources embedded here:
  * `src/services/crypto.rs`   — `CryptoService::canonize_json`, `sign_payload`,
    `create_signed_payload`, and the `init` singleton initialisation;
  * `src/models/common.rs`     — `LosslessNumber::format_for_json`;
  * `src/services/plexo_service.rs` — `clean_nulls`, `is_lossless_number_field`;
  * `src/services/middleware.rs` — the service-auth filter and the rate-limit
    cleanup sweep.

Modelling conventions:
  * `serde_json::Value` becomes the inductive `Value` below, with serde's
    integer / floating split kept as `intNum` / `floatNum`.  Floating-point
    numbers are modelled as exact rationals: an `f64` produced by parsing a
    decimal literal is represented by the exact decimal value, and the shortest
    round-trip printing of such an `f64` is modelled by printing the exact
    decimal expansion without trailing zeros.  Binary rounding of `f64` is
    outside the model; every concrete input used in a theorem below is one on
    which the exact-decimal semantics and the `f64` semantics agree.
  * Rust `String`s are Lean `String`s; byte-level equality of UTF-8 encodings
    coincides with `String` equality, which is how byte comparisons are stated.
  * Time (`Instant`, unix seconds) is an abstract discrete clock: `Nat` for the
    middleware's monotonic clock, `Int` for unix timestamps.  `Duration`
    subtraction `now.duration_since(t)` is truncated subtraction `now - t`,
    matching `Instant`'s saturating behaviour.
-/

namespace Plexo

/-- Embedding of `serde_json::Value`.  Objects are association lists; the Rust
`serde_json::Map` is a `BTreeMap` whose keys are unique, so theorems that
depend on key uniqueness carry an explicit `Nodup` hypothesis. -/
inductive Value where
  | null
  | bool (b : Bool)
  | intNum (n : Int)
  | floatNum (q : Rat)
  | str (s : String)
  | arr (es : List Value)
  | obj (kvs : List (String × Value))

/-- `Value::is_null`. -/
def Value.isNull : Value → Bool
  | .null => true
  | _ => false

/-! ### Key ordering (`keys.sort()` in `canonize_json`)

Rust sorts `String` keys by their UTF-8 bytes.  Byte-lexicographic order on
UTF-8 encodings coincides with lexicographic order on Unicode scalar values,
so the comparison is modelled on the `List Char` contents directly, as an
executable strict-order test. -/

/-- Lexicographic strict comparison of two character lists. -/
def charListLT : List Char → List Char → Bool
  | [], [] => false
  | [], _ :: _ => true
  | _ :: _, [] => false
  | a :: as, b :: bs => if a < b then true else if b < a then false else charListLT as bs

theorem charListLT_irrefl : ∀ l, charListLT l l = false := by
  intro l
  induction l with
  | nil => rfl
  | cons a as ih => simp [charListLT, ih]

theorem charListLT_asymm :
    ∀ {a b : List Char}, charListLT a b = true → charListLT b a = false := by
  intro a
  induction a with
  | nil =>
    intro b h
    cases b with
    | nil => simp [charListLT] at h
    | cons c cs => simp [charListLT]
  | cons x xs ih =>
    intro b h
    cases b with
    | nil => simp [charListLT] at h
    | cons y ys =>
      simp only [charListLT] at h ⊢
      by_cases hxy : x < y
      · rw [if_neg (asymm hxy), if_pos hxy]
      · by_cases hyx : y < x
        · rw [if_neg hxy, if_pos hyx] at h
          simp at h
        · rw [if_neg hxy, if_neg hyx] at h
          rw [if_neg hyx, if_neg hxy]
          exact ih h

theorem charListLT_trans :
    ∀ {a b c : List Char}, charListLT a b = true → charListLT b c = true →
      charListLT a c = true := by
  intro a
  induction a with
  | nil =>
    intro b c hab hbc
    cases b with
    | nil => simp [charListLT] at hab
    | cons y ys =>
      cases c with
      | nil => simp [charListLT] at hbc
      | cons z zs => simp [charListLT]
  | cons x xs ih =>
    intro b c hab hbc
    cases b with
    | nil => simp [charListLT] at hab
    | cons y ys =>
      cases c with
      | nil => simp [charListLT] at hbc
      | cons z zs =>
        simp only [charListLT] at hab hbc ⊢
        by_cases hxy : x < y
        · by_cases hyz : y < z
          · rw [if_pos (lt_trans hxy hyz)]
          · by_cases hzy : z < y
            · rw [if_neg hyz, if_pos hzy] at hbc
              simp at hbc
            · have hyz' : y = z := le_antisymm (not_lt.mp hzy) (not_lt.mp hyz)
              subst hyz'
              rw [if_pos hxy]
        · by_cases hyx : y < x
          · rw [if_neg hxy, if_pos hyx] at hab
            simp at hab
          · have hxy' : x = y := le_antisymm (not_lt.mp hyx) (not_lt.mp hxy)
            subst hxy'
            rw [if_neg hxy, if_neg hyx] at hab
            by_cases hyz : x < z
            · rw [if_pos hyz]
            · by_cases hzy : z < x
              · rw [if_neg hyz, if_pos hzy] at hbc
                simp at hbc
              · rw [if_neg hyz, if_neg hzy] at hbc
                rw [if_neg hyz, if_neg hzy]
                exact ih hab hbc

theorem charListLT_conn :
    ∀ {a b : List Char}, charListLT a b = false → charListLT b a = false → a = b := by
  intro a
  induction a with
  | nil =>
    intro b h _
    cases b with
    | nil => rfl
    | cons y ys => simp [charListLT] at h
  | cons x xs ih =>
    intro b hab hba
    cases b with
    | nil => simp [charListLT] at hba
    | cons y ys =>
      simp only [charListLT] at hab hba
      by_cases hxy : x < y
      · rw [if_pos hxy] at hab
        simp at hab
      · by_cases hyx : y < x
        · rw [if_pos hyx] at hba
          simp at hba
        · have hxy' : x = y := le_antisymm (not_lt.mp hyx) (not_lt.mp hxy)
          subst hxy'
          rw [if_neg hxy, if_neg hyx] at hab hba
          rw [ih hab hba]

theorem charListLT_false_iff {a b : List Char} :
    charListLT a b = false ↔ (a = b ∨ charListLT b a = true) := by
  constructor
  · intro h
    cases hba : charListLT b a with
    | true => exact Or.inr rfl
    | false => exact Or.inl (charListLT_conn h hba)
  · rintro (rfl | h)
    · exact charListLT_irrefl a
    · exact charListLT_asymm h

/-- The sort order on object members: non-strict byte order on keys. -/
def keyLE (a b : String × Value) : Prop := charListLT b.1.data a.1.data = false

instance : DecidableRel keyLE := fun a b =>
  inferInstanceAs (Decidable (charListLT b.1.data a.1.data = false))

instance : IsTotal (String × Value) keyLE :=
  ⟨fun a b => by
    unfold keyLE
    cases h : charListLT b.1.data a.1.data with
    | false => exact Or.inl rfl
    | true => exact Or.inr (charListLT_asymm h)⟩

instance : IsTrans (String × Value) keyLE :=
  ⟨fun a b c hab hbc => by
    unfold keyLE at *
    rcases charListLT_false_iff.mp hab with h₁ | h₁ <;>
      rcases charListLT_false_iff.mp hbc with h₂ | h₂
    · rw [charListLT_false_iff]; exact Or.inl (h₂.trans h₁)
    · rw [h₁] at h₂; exact charListLT_asymm h₂
    · rw [h₂]; exact hab
    · exact charListLT_asymm (charListLT_trans h₁ h₂)⟩

/-- Strict version of `keyLE`; antisymmetric, used to identify the sorted
orders of two permuted objects with distinct keys. -/
def keyLT (a b : String × Value) : Prop := charListLT a.1.data b.1.data = true

instance : IsAntisymm (String × Value) keyLT :=
  ⟨fun a b h₁ h₂ => by
    unfold keyLT at h₁ h₂
    rw [charListLT_asymm h₁] at h₂
    simp at h₂⟩

theorem keyLT_of_keyLE_of_ne {a b : String × Value} (h : keyLE a b)
    (hne : a.1 ≠ b.1) : keyLT a b := by
  unfold keyLE at h
  unfold keyLT
  rcases charListLT_false_iff.mp h with h' | h'
  · exact absurd (String.ext (h'.symm)) hne
  · exact h'

/-- `let mut keys: Vec<&String> = map.keys().collect(); keys.sort();` —
modelled as sorting the pairs by key (the Rust map cannot hold duplicate
keys, so sorting pairs by key is the same as sorting the keys and indexing). -/
def sortKvs (kvs : List (String × Value)) : List (String × Value) :=
  kvs.insertionSort keyLE

/-! ### Size lemmas for termination -/

theorem sizeOf_filter_le {α : Type} [SizeOf α] (p : α → Bool) :
    ∀ l : List α, sizeOf (l.filter p) ≤ sizeOf l := by
  intro l
  induction l with
  | nil => simp
  | cons a l ih =>
    by_cases h : p a
    · simp only [List.filter_cons, h, if_pos]
      simp only [List.cons.sizeOf_spec]
      omega
    · simp only [List.filter_cons, if_neg h]
      simp only [List.cons.sizeOf_spec]
      omega

theorem sizeOf_perm_eq {α : Type} [SizeOf α] {l₁ l₂ : List α} (h : l₁.Perm l₂) :
    sizeOf l₁ = sizeOf l₂ := by
  induction h with
  | nil => rfl
  | cons a _ ih => simp only [List.cons.sizeOf_spec]; omega
  | swap a b l => simp only [List.cons.sizeOf_spec]; omega
  | trans _ _ ih₁ ih₂ => omega

theorem sizeOf_sortKvs (kvs : List (String × Value)) :
    sizeOf (sortKvs kvs) = sizeOf kvs :=
  sizeOf_perm_eq (List.perm_insertionSort keyLE kvs)

theorem sizeOf_mem_lt {α : Type} [SizeOf α] {a : α} :
    ∀ {l : List α}, a ∈ l → sizeOf a < sizeOf l := by
  intro l h
  induction l with
  | nil => cases h
  | cons b l ih =>
    simp only [List.cons.sizeOf_spec]
    rcases List.mem_cons.mp h with rfl | h'
    · omega
    · have := ih h'; omega

theorem sizeOf_snd_lt_obj {kv : String × Value} {kvs : List (String × Value)}
    (h : kv ∈ kvs) : sizeOf kv.2 < sizeOf (Value.obj kvs) := by
  have h1 : sizeOf kv < sizeOf kvs := sizeOf_mem_lt h
  have h2 : sizeOf kv.2 < sizeOf kv := by
    obtain ⟨k, v⟩ := kv
    simp only [Prod.mk.sizeOf_spec]
    omega
  simp only [Value.obj.sizeOf_spec]
  omega

theorem sizeOf_mem_lt_arr {e : Value} {es : List Value} (h : e ∈ es) :
    sizeOf e < sizeOf (Value.arr es) := by
  have := sizeOf_mem_lt h
  simp only [Value.arr.sizeOf_spec]
  omega

/-! ### Atom printing (`Value::to_string` on non-container values) -/

/-- Hex digit characters used by serde's `\u00XX` escapes (lowercase). -/
def hexDigit (n : Nat) : Char :=
  if n < 10 then Char.ofNat (48 + n) else Char.ofNat (87 + n)

/-- serde_json's string escaping (used by `Value::to_string`): `"` and `\`
are escaped, control characters become `\b`, `\f`, `\n`, `\r`, `\t` or
`\u00XX`; everything else passes through. -/
def escapeJsonChar (c : Char) : String :=
  if c = '"' then "\\\""
  else if c = '\\' then "\\\\"
  else if c.toNat = 8 then "\\b"
  else if c.toNat = 12 then "\\f"
  else if c = '\n' then "\\n"
  else if c = '\r' then "\\r"
  else if c = '\t' then "\\t"
  else if c.toNat < 32 then
    "\\u00" ++ String.mk [hexDigit (c.toNat / 16), hexDigit (c.toNat % 16)]
  else String.singleton c

/-- serde_json's quoted-and-escaped string rendering. -/
def escapeJson (s : String) : String :=
  "\"" ++ String.join (s.toList.map escapeJsonChar) ++ "\""

/-- Fractional decimal digits of `num / den` (`0 ≤ num < den`), fuel-bounded.
Exact whenever the expansion terminates within the fuel, which holds for every
float the model constructs (they come from finite decimal literals). -/
def fracDigitsAux (den : Nat) : Nat → Nat → List Char
  | 0, _ => []
  | fuel + 1, num =>
    if num = 0 then []
    else
      let num10 := num * 10
      Char.ofNat (48 + num10 / den) :: fracDigitsAux den fuel (num10 % den)

/-- Printing of a serde `f64` number (`Value::to_string`): shortest round-trip
decimal, modelled as the exact decimal expansion without trailing zeros, with
`.0` appended to whole numbers (serde prints `12.0`, not `12`). -/
def printFloat (q : Rat) : String :=
  let sign := if q.num < 0 then "-" else ""
  let an := q.num.natAbs
  let d := q.den
  let ip := an / d
  let ds := fracDigitsAux d 200 (an % d)
  sign ++ toString ip ++ "." ++ (if ds.isEmpty then "0" else String.mk ds)

/-- `Value::to_string` restricted to the values the catch-all `_` arms of
`canonize_json` can receive.  In the two array-item loops and the object-value
match, `String` is matched separately before the `_` arm, so only `null`,
booleans and numbers reach `to_string` there; in the top-level `_` arm a bare
string is also possible and is printed escaped.  The `arr`/`obj` arms below are
unreachable from `canonize_json` (both loops match them first) and are given
placeholder values. -/
def atomToString : Value → String
  | .null => "null"
  | .bool true => "true"
  | .bool false => "false"
  | .intNum n => toString n
  | .floatNum q => printFloat q
  | .str s => escapeJson s
  | .arr _ => ""
  | .obj _ => ""

/-! ### `CryptoService::canonize_json` (src/services/crypto.rs, lines 136-236)

The mutual block below mirrors the source structure:
  * `canonize` is `canonize_json` itself (`Object`, `Array`, `_` arms);
  * `canonMembers` is the object loop with its `is_first` comma logic, run on
    the sorted key list with null-valued keys skipped;
  * `canonObjVal` is the `canonized_value` match on an object's value — note
    that an array here has its null items skipped before rendering;
  * `canonItems` / `canonArrElem` are the array-item loop and per-item match,
    shared by the object-value array (nulls pre-filtered by the caller) and
    the top-level `Value::Array` branch (which does NOT filter nulls). -/

mutual

def canonize : Value → String
  | .obj kvs =>
    "\x7b" ++ canonMembers ((sortKvs kvs).filter (fun kv => !kv.2.isNull)) ++ "\x7d"
  | .arr es => "[" ++ canonItems es ++ "]"
  | v => atomToString v
termination_by v => (sizeOf v, 0)
decreasing_by
  · apply Prod.Lex.left
    calc sizeOf ((sortKvs kvs).filter (fun kv => !kv.2.isNull))
        ≤ sizeOf (sortKvs kvs) := sizeOf_filter_le _ _
      _ = sizeOf kvs := sizeOf_sortKvs kvs
      _ < sizeOf (Value.obj kvs) := by simp only [Value.obj.sizeOf_spec]; omega
  · apply Prod.Lex.left
    simp only [Value.arr.sizeOf_spec]; omega

def canonMembers : List (String × Value) → String
  | [] => ""
  | [(k, v)] => "\"" ++ k ++ "\":" ++ canonObjVal v
  | (k, v) :: rest =>
    "\"" ++ k ++ "\":" ++ canonObjVal v ++ "," ++ canonMembers rest
termination_by l => (sizeOf l, 1)
decreasing_by
  · apply Prod.Lex.left
    simp only [List.cons.sizeOf_spec, List.nil.sizeOf_spec, Prod.mk.sizeOf_spec]
    omega
  · apply Prod.Lex.left
    simp only [List.cons.sizeOf_spec, Prod.mk.sizeOf_spec]
    omega
  · apply Prod.Lex.left
    simp only [List.cons.sizeOf_spec]
    omega

def canonObjVal : Value → String
  | .obj kvs => canonize (.obj kvs)
  | .arr es => "[" ++ canonItems (es.filter (fun e => !e.isNull)) ++ "]"
  | .str s => "\"" ++ s ++ "\""
  | v => atomToString v
termination_by v => (sizeOf v, 1)
decreasing_by
  · exact Prod.Lex.right _ (by omega)
  · apply Prod.Lex.left
    calc sizeOf (es.filter (fun e => !e.isNull))
        ≤ sizeOf es := sizeOf_filter_le _ _
      _ < sizeOf (Value.arr es) := by simp only [Value.arr.sizeOf_spec]; omega

def canonItems : List Value → String
  | [] => ""
  | [e] => canonArrElem e
  | e :: rest => canonArrElem e ++ "," ++ canonItems rest
termination_by l => (sizeOf l, 1)
decreasing_by
  · apply Prod.Lex.left
    simp only [List.cons.sizeOf_spec, List.nil.sizeOf_spec]
    omega
  · apply Prod.Lex.left
    simp only [List.cons.sizeOf_spec]
    omega
  · apply Prod.Lex.left
    simp only [List.cons.sizeOf_spec]
    omega

def canonArrElem : Value → String
  | .obj kvs => canonize (.obj kvs)
  | .arr es => canonize (.arr es)
  | .str s => "\"" ++ s ++ "\""
  | v => atomToString v
termination_by v => (sizeOf v, 1)
decreasing_by
  · exact Prod.Lex.right _ (by omega)
  · exact Prod.Lex.right _ (by omega)

end

/-! ### `LosslessNumber::format_for_json` (src/models/common.rs, lines 48-83) -/

/-- Value of a digit string. -/
def digitsToNat (ds : List Char) : Nat :=
  ds.foldl (fun acc c => 10 * acc + (c.toNat - 48)) 0

/-- Leading digits and the remainder. -/
def splitDigits (cs : List Char) : List Char × List Char :=
  (cs.takeWhile Char.isDigit, cs.dropWhile Char.isDigit)

/-- Model of Rust's `str::parse::<f64>()` on finite decimal literals: accepts
`[+-]? digits ['.' digits*]?` or `[+-]? '.' digits`, each with an optional
`e`/`E` exponent, and returns the exact rational value of the literal.  The
special forms `inf`/`infinity`/`NaN` and the rounding to the nearest binary
`f64` are outside the model (see the header comment). -/
def parseF64 (s : String) : Option Rat :=
  let cs := s.data
  let sc : Int × List Char :=
    match cs with
    | '+' :: rest => (1, rest)
    | '-' :: rest => (-1, rest)
    | rest => (1, rest)
  let sign := sc.1
  let (ip, cs₁) := splitDigits sc.2
  let fc : Option (List Char) × List Char :=
    match cs₁ with
    | '.' :: rest =>
      let (ds, rest') := splitDigits rest
      (some ds, rest')
    | rest => (none, rest)
  let fracDs := fc.1.getD []
  if ip.isEmpty && fracDs.isEmpty then none
  else
    -- exact value of the mantissa: (ip.fracDs) = base / 10^|fracDs|
    let base : Int := sign * ((digitsToNat ip : Int) * (10 : Int) ^ fracDs.length +
      (digitsToNat fracDs : Int))
    let scale : Nat := 10 ^ fracDs.length
    match fc.2 with
    | [] => some (mkRat base scale)
    | c :: rest =>
      if c = 'e' ∨ c = 'E' then
        let ec : Bool × List Char :=
          match rest with
          | '+' :: r => (false, r)
          | '-' :: r => (true, r)
          | r => (false, r)
        let (eds, rest') := splitDigits ec.2
        if eds.isEmpty || !rest'.isEmpty then none
        else
          let e := digitsToNat eds
          if ec.1 then some (mkRat base (scale * 10 ^ e))
          else some (mkRat (base * (10 : Int) ^ e) scale)
      else none

/-- Round `n / d` (with `d > 0`) to the nearest integer, ties to even — the
rounding Rust's fixed-precision float formatting performs on the value being
printed. -/
def roundHalfEvenInt (n d : Int) : Int :=
  let f := n.fdiv d
  let r := n - f * d
  if 2 * r < d then f
  else if d < 2 * r then f + 1
  else if f % 2 = 0 then f else f + 1

/-- `format!("{:.1}", num)` for a value whose fractional part is zero. -/
def fmtDec1Whole (q : Rat) : String := toString q.num ++ ".0"

/-- Two decimal digits with a leading zero. -/
def pad2 (m : Nat) : String :=
  String.mk [Char.ofNat (48 + m / 10 % 10), Char.ofNat (48 + m % 10)]

/-- `format!("{:.2}", num)`: round the value (`num/den` as exact integer data)
to two decimal places and print exactly two fractional digits. -/
def fmtDec2 (q : Rat) : String :=
  let n := roundHalfEvenInt (q.num * 100) (q.den : Int)
  let sgn := if n < 0 then "-" else ""
  let m := n.natAbs
  sgn ++ toString (m / 100) ++ "." ++ pad2 (m % 100)

/-- Rust `str::trim` (the model covers its ASCII whitespace characters). -/
def rustTrim (s : String) : String :=
  String.mk (((s.data.dropWhile Char.isWhitespace).reverse.dropWhile
    Char.isWhitespace).reverse)

/-- `trimmed.split('.')` / `String::splitOn "."`: split a character list at
every `'.'`. -/
def splitOnDot : List Char → List (List Char)
  | [] => [[]]
  | '.' :: rest => [] :: splitOnDot rest
  | c :: rest =>
    match splitOnDot rest with
    | [] => [[c]]
    | p :: ps => (c :: p) :: ps

/-- `LosslessNumber::format_for_json` (src/models/common.rs, lines 48-83).
The fallback branch's `&decimal_part[..2]` is a byte slice; it is modelled as
taking two characters (identical on ASCII digit content). -/
def format_for_json (s : String) : String :=
  let trimmed := rustTrim s
  match parseF64 trimmed with
  | some num =>
    if num.den = 1 then fmtDec1Whole num
    else fmtDec2 num
  | none =>
    if trimmed.data.contains '.' then
      let parts := (splitOnDot trimmed.data).map String.mk
      if parts.length = 2 then
        let integer_part := parts.getD 0 ""
        let decimal_part := parts.getD 1 ""
        if decimal_part.length = 1 then integer_part ++ "." ++ decimal_part ++ "0"
        else if decimal_part.length > 2 then
          integer_part ++ "." ++ String.mk (decimal_part.data.take 2)
        else trimmed
      else trimmed
    else trimmed ++ ".0"

/-! ### `clean_nulls` (src/services/plexo_service.rs, lines 117-168) -/

/-- `is_lossless_number_field` (src/services/plexo_service.rs, lines 164-168). -/
def is_lossless_number_field (field_name : String) : Bool :=
  field_name == "BilledAmount" || field_name == "TaxedAmount" ||
  field_name == "VATAmount" || field_name == "Amount" ||
  field_name == "LoyaltyProgramAmount"

/-- The conversion step of `clean_nulls` for lossless-number fields: a string
value under one of the amount field names is formatted by
`LosslessNumber::format_for_json` and the result re-parsed as `f64`; on
success the string is to be replaced by that bare number. -/
def losslessAsNumber (k : String) (v : Value) : Option Rat :=
  if is_lossless_number_field k then
    match v with
    | .str s => parseF64 (format_for_json s)
    | _ => none
  else none

mutual

/-- `clean_nulls` (src/services/plexo_service.rs, lines 119-161): remove
null-valued keys / null array items, then recursively process the remaining
values, replacing amount-field strings by numbers. -/
def clean_nulls : Value → Value
  | .obj kvs => .obj (cleanMembers (kvs.filter (fun kv => !kv.2.isNull)))
  | .arr es => .arr (cleanItems (es.filter (fun e => !e.isNull)))
  | v => v
termination_by v => (sizeOf v, 0)
decreasing_by
  · apply Prod.Lex.left
    calc sizeOf (kvs.filter (fun kv => !kv.2.isNull))
        ≤ sizeOf kvs := sizeOf_filter_le _ _
      _ < sizeOf (Value.obj kvs) := by simp only [Value.obj.sizeOf_spec]; omega
  · apply Prod.Lex.left
    calc sizeOf (es.filter (fun e => !e.isNull))
        ≤ sizeOf es := sizeOf_filter_le _ _
      _ < sizeOf (Value.arr es) := by simp only [Value.arr.sizeOf_spec]; omega

/-- The `for (key, v) in map.iter_mut()` loop of `clean_nulls`.  In the source
the amount-field replacement writes `*v = json!(num)` and the recursive
`clean_nulls(v)` call then visits the replaced value; visiting a bare number
is a no-op, which this model folds into the `some` branch. -/
def cleanMembers : List (String × Value) → List (String × Value)
  | [] => []
  | (k, v) :: rest =>
    (match losslessAsNumber k v with
     | some num => (k, Value.floatNum num)
     | none => (k, clean_nulls v)) :: cleanMembers rest
termination_by l => (sizeOf l, 1)
decreasing_by
  · apply Prod.Lex.left
    simp only [List.cons.sizeOf_spec, Prod.mk.sizeOf_spec]
    omega
  · apply Prod.Lex.left
    simp only [List.cons.sizeOf_spec]
    omega

/-- The `for item in arr.iter_mut()` loop of `clean_nulls`. -/
def cleanItems : List Value → List Value
  | [] => []
  | e :: rest => clean_nulls e :: cleanItems rest
termination_by l => (sizeOf l, 1)
decreasing_by
  · apply Prod.Lex.left
    simp only [List.cons.sizeOf_spec]
    omega
  · apply Prod.Lex.left
    simp only [List.cons.sizeOf_spec]
    omega

end

/-! ### Service auth middleware (src/services/middleware.rs) -/

/-- `ServiceAuthConfig` together with its `ServiceRateLimit` numbers (the
`storage` map is explicit state, passed separately). -/
structure ServiceAuthConfig where
  service_key : String
  max_requests : Nat
  window : Nat
  service_name : String

/-- Lookup in the `DashMap<String, (u32, Instant)>` storage, modelled as an
association list from service name to `(count, windowStart)`. -/
def lookupEntry : List (String × Nat × Nat) → String → Option (Nat × Nat)
  | [], _ => none
  | e :: rest, k => if e.1 = k then some e.2 else lookupEntry rest k

/-- Write-through of the entry guard: replace the entry if present, insert
otherwise. -/
def setEntry : List (String × Nat × Nat) → String → Nat × Nat → List (String × Nat × Nat)
  | [], k, v => [(k, v)]
  | e :: rest, k, v => if e.1 = k then (k, v) :: rest else e :: setEntry rest k v

/-- The outcome of looking up the configured header on a request: absent,
present but rejected by `HeaderValue::to_str`, or a decoded string value.
Decodability of the raw header bytes is modelled abstractly — the source only
branches on `to_str`'s success. -/
inductive HeaderLookup where
  | missing
  | notDecodable
  | value (s : String)

inductive AuthDecision where
  | unauthorized
  | badRequest
  | forbidden
  | tooManyRequests
  | allowed
deriving DecidableEq, Repr

/-- `ServiceAuthMiddlewareService::call` (src/services/middleware.rs, lines
136-204) as a transition on the rate-limit storage.  The constant-time
`ct_eq` of the header's UTF-8 bytes against the secret's bytes succeeds
exactly when the two strings are equal (UTF-8 encoding is injective). -/
def call (cfg : ServiceAuthConfig) (hdr : HeaderLookup)
    (storage : List (String × Nat × Nat)) (now : Nat) :
    AuthDecision × List (String × Nat × Nat) :=
  match hdr with
  | .missing => (.unauthorized, storage)
  | .notDecodable => (.badRequest, storage)
  | .value s =>
    if s ≠ cfg.service_key then (.forbidden, storage)
    else
      let e₀ := (lookupEntry storage cfg.service_name).getD (0, now)
      let e₁ := if now - e₀.2 ≥ cfg.window then ((0 : Nat), now) else e₀
      if e₁.1 ≥ cfg.max_requests then
        (.tooManyRequests, setEntry storage cfg.service_name e₁)
      else
        (.allowed, setEntry storage cfg.service_name (e₁.1 + 1, e₁.2))

/-- One tick of the loop in `start_cleanup_task` (src/services/middleware.rs,
lines 73-85): `storage.retain(|_, (_, timestamp)| now.duration_since(*timestamp) < window)`. -/
def cleanupSweep (storage : List (String × Nat × Nat)) (now window : Nat) :
    List (String × Nat × Nat) :=
  storage.filter (fun e => now - e.2.2 < window)

/-! ### Crypto service initialisation (src/services/crypto.rs, lines 36-75) -/

/-- `CryptoService`: the extracted signing identity (key material opaque). -/
structure CryptoService where
  private_key : String
  fingerprint : String
deriving DecidableEq

inductive CryptoError where
  | initializationError
  | signingError
deriving DecidableEq

/-- The process-wide singleton state: the `INIT: Once` flag plus
`CRYPTO_SERVICE: Arc<Mutex<Option<CryptoService>>>`. -/
structure CryptoGlobals where
  once_done : Bool
  service : Option CryptoService
deriving DecidableEq

/-- `init` (src/services/crypto.rs, lines 46-75).  `loadResult` stands for the
outcome of `CryptoService::new` on the PFX environment variables.  The local
`initialized` flag starts `false` and is set only inside the `call_once`
closure on success; a call that skips the closure (because the `Once` has
already fired) therefore falls through to the `InitializationError` return. -/
def init (loadResult : Option CryptoService) (g : CryptoGlobals) :
    Except CryptoError Unit × CryptoGlobals :=
  if g.once_done then (.error .initializationError, g)
  else
    match loadResult with
    | some service => (.ok (), ⟨true, some service⟩)
    | none => (.error .initializationError, ⟨true, g.service⟩)

/-! ### `sign_payload` / `create_signed_payload` (src/services/crypto.rs,
lines 238-283) -/

structure SignedObject where
  Fingerprint : String
  Object : Value
  UTCUnixTimeExpiration : Int

structure SignedRequest where
  Object : SignedObject
  Signature : String

def base64Table : List Char :=
  "ABCDEFGHIJKLMNOPQRSTUVWXYZabcdefghijklmnopqrstuvwxyz0123456789+/".data

def b64c (n : Nat) : Char := base64Table.getD n 'A'

/-- RFC 4648 base64 with padding
(`base64::engine::general_purpose::STANDARD`). -/
def base64Encode : List Nat → String
  | [] => ""
  | [b1] =>
    String.mk [b64c (b1 / 4), b64c (b1 % 4 * 16)] ++ "=="
  | [b1, b2] =>
    String.mk [b64c (b1 / 4), b64c (b1 % 4 * 16 + b2 / 16), b64c (b2 % 16 * 4)] ++ "="
  | b1 :: b2 :: b3 :: rest =>
    String.mk [b64c (b1 / 4), b64c (b1 % 4 * 16 + b2 / 16),
      b64c (b2 % 16 * 4 + b3 / 64), b64c (b3 % 64)] ++ base64Encode rest

/-- UTF-8 bytes of a string (`canonized_json.as_bytes()`). -/
def utf8Bytes (s : String) : List Nat :=
  s.toUTF8.toList.map UInt8.toNat

/-- `sign_payload` (src/services/crypto.rs, lines 238-270).  `now` models
`chrono::Utc::now().timestamp()`; `rsaSha512Sign` abstracts the RSA/SHA-512
`Signer` (an external OpenSSL primitive) as a function from message bytes to
raw signature bytes. -/
def sign_payload (fingerprint : String) (rsaSha512Sign : List Nat → List Nat)
    (now : Int) (payload : Value) : String × Int :=
  let expiration := now + 5 * 60
  let object_to_sign : Value := .obj
    [("Fingerprint", .str fingerprint), ("Object", payload),
     ("UTCUnixTimeExpiration", .intNum expiration)]
  let canonized_json := canonize object_to_sign
  let signature := rsaSha512Sign (utf8Bytes canonized_json)
  (base64Encode signature, expiration)

/-- `create_signed_payload` (src/services/crypto.rs, lines 272-283). -/
def create_signed_payload (fingerprint : String) (rsaSha512Sign : List Nat → List Nat)
    (now : Int) (payload : Value) : SignedRequest :=
  let se := sign_payload fingerprint rsaSha512Sign now payload
  { Object := { Fingerprint := fingerprint, Object := payload,
                UTCUnixTimeExpiration := se.2 },
    Signature := se.1 }

/-! ### Sorting lemmas for the canonicalizer -/

theorem pairwise_keyNe_of_nodup {l : List (String × Value)}
    (h : (l.map Prod.fst).Nodup) : l.Pairwise (fun a b => a.1 ≠ b.1) :=
  List.pairwise_map.mp h

theorem sorted_keyLT_sortKvs {l : List (String × Value)}
    (h : (l.map Prod.fst).Nodup) : (sortKvs l).Sorted keyLT := by
  have hle : (sortKvs l).Sorted keyLE := List.sorted_insertionSort keyLE l
  have hne : (sortKvs l).Pairwise (fun a b => a.1 ≠ b.1) :=
    ((List.perm_insertionSort keyLE l).pairwise_iff
      (fun h' => Ne.symm h')).mpr (pairwise_keyNe_of_nodup h)
  exact (hle.and hne).imp (fun h' => keyLT_of_keyLE_of_ne h'.1 h'.2)

/-- Two objects with the same members (up to order) and duplicate-free keys
sort to the same member list. -/
theorem sortKvs_eq_of_perm {l₁ l₂ : List (String × Value)} (hp : l₁.Perm l₂)
    (h : (l₁.map Prod.fst).Nodup) : sortKvs l₁ = sortKvs l₂ := by
  have h₂ : (l₂.map Prod.fst).Nodup := ((hp.map Prod.fst).nodup_iff).mp h
  apply List.eq_of_perm_of_sorted (r := keyLT)
  · exact (List.perm_insertionSort keyLE l₁).trans
      (hp.trans (List.perm_insertionSort keyLE l₂).symm)
  · exact sorted_keyLT_sortKvs h
  · exact sorted_keyLT_sortKvs h₂

/-- Filtering before sorting equals filtering after sorting (duplicate-free
keys). -/
theorem sortKvs_filter_comm (p : String × Value → Bool)
    {kvs : List (String × Value)} (h : (kvs.map Prod.fst).Nodup) :
    sortKvs (kvs.filter p) = (sortKvs kvs).filter p := by
  have hnodup : ((kvs.filter p).map Prod.fst).Nodup :=
    h.sublist ((List.filter_sublist kvs).map Prod.fst)
  apply List.eq_of_perm_of_sorted (r := keyLT)
  · exact (List.perm_insertionSort keyLE _).trans
      (((List.perm_insertionSort keyLE kvs).filter p).symm)
  · exact sorted_keyLT_sortKvs hnodup
  · exact (sorted_keyLT_sortKvs h).filter p

/-! ### Claim C1 -/

/-- C1 (counterexample): canonicalization does NOT drop a null element of a
top-level array: `canonize_json([null])` is `"[null]"`, not `"[]"`, so nulls
are not stripped from arrays at every nesting position. -/
theorem canonize_toplevel_array_keeps_null :
    canonize (.arr [.null]) ≠ "[]" ∧ canonize (.arr [.null]) = "[null]" := by
  have h : canonize (.arr [.null]) = "[null]" := by
    simp [canonize, canonItems, canonArrElem, atomToString]
  exact ⟨by rw [h]; decide, h⟩

/-- C1 (amended): canonicalization drops null-valued object keys at every
depth, and null elements of arrays that appear directly as object values; but
null elements of a top-level array (or of an array nested inside another
array) are kept and emitted as `null`.  The spec's object example still
canonicalizes as stated. -/
theorem canonize_strips_nulls_amended :
    (∀ kvs : List (String × Value), (kvs.map Prod.fst).Nodup →
      canonize (.obj kvs) =
        canonize (.obj (kvs.filter (fun kv => !kv.2.isNull)))) ∧
    (∀ es : List Value,
      canonObjVal (.arr es) = canonObjVal (.arr (es.filter (fun e => !e.isNull)))) ∧
    canonize (.obj [("a", .intNum 1), ("b", .null),
      ("c", .obj [("d", .null), ("e", .intNum 2)])]) = "\x7b\"a\":1,\"c\":\x7b\"e\":2\x7d\x7d" ∧
    canonize (.arr [.null]) = "[null]" := by
  refine ⟨?_, ?_, ?_, ?_⟩
  · intro kvs h
    simp only [canonize]
    rw [sortKvs_filter_comm _ h]
    simp [List.filter_filter]
  · intro es
    simp only [canonObjVal]
    simp [List.filter_filter]
  · simp [canonize, canonMembers, canonObjVal, canonItems, canonArrElem,
      sortKvs, keyLE, List.insertionSort, List.orderedInsert, atomToString,
      Value.isNull, charListLT]
    rfl
  · simp [canonize, canonItems, canonArrElem, atomToString]

/-- Witness for the amended C1 theorem at a concrete object. -/
theorem canonize_strips_nulls_amended_witness :
    canonize (.obj [("a", .intNum 1), ("b", .null)]) =
      canonize (.obj ([("a", Value.intNum 1), ("b", Value.null)].filter
        (fun kv => !kv.2.isNull))) :=
  canonize_strips_nulls_amended.1 [("a", .intNum 1), ("b", .null)] (by decide)

/-! ### Claim C3 -/

/-- C3: for every payload, signing time and signing primitive, the envelope
returned by `create_signed_payload` carries expiration = now + 300 s, the
fingerprint, the payload unchanged, and a `Signature` that is the base64
encoding of the RSA/SHA-512 signature over the UTF-8 bytes of the
canonicalized envelope object (whose expiration is that same now + 300). -/
theorem create_signed_payload_spec (fingerprint : String)
    (rsaSha512Sign : List Nat → List Nat) (now : Int) (payload : Value) :
    (create_signed_payload fingerprint rsaSha512Sign now payload).Object.UTCUnixTimeExpiration
        = now + 300 ∧
    (create_signed_payload fingerprint rsaSha512Sign now payload).Object.Fingerprint
        = fingerprint ∧
    (create_signed_payload fingerprint rsaSha512Sign now payload).Object.Object = payload ∧
    (create_signed_payload fingerprint rsaSha512Sign now payload).Signature =
      base64Encode (rsaSha512Sign (utf8Bytes (canonize (.obj
        [("Fingerprint", .str fingerprint), ("Object", payload),
         ("UTCUnixTimeExpiration", .intNum (now + 300))])))) := by
  have h : now + 5 * 60 = now + 300 := by norm_num
  refine ⟨?_, rfl, rfl, ?_⟩
  · simp only [create_signed_payload, sign_payload]
    exact h
  · simp only [create_signed_payload, sign_payload]
    rw [h]

/-! ### Claim C4 -/

/-- C4: on an input that parses as a number, more than two decimal digits are
ROUNDED by `format!("{:.2}", ..)`, not truncated: `"12.3456"` formats to
`"12.35"`, contradicting the claim's (and the function's own doc comment's)
`"12.34"`. -/
theorem format_for_json_rounds_12_3456 :
    format_for_json "12.3456" = "12.35" ∧ format_for_json "12.3456" ≠ "12.34" := by
  constructor <;> decide

/-! ### Claim C6 -/

/-- C6 (counterexample): with window 60, a caller requests at times 0 and 59
(both allowed); the sweep at time 61 evicts its entry even though the most
recent request is only 2 time units old (within the window), because the
stored timestamp is the window start, not the last-seen time. -/
theorem cleanupSweep_evicts_active_caller :
    call ⟨"sec", 100, 60, "svc"⟩ (.value "sec") [] 0 = (.allowed, [("svc", 1, 0)]) ∧
    call ⟨"sec", 100, 60, "svc"⟩ (.value "sec") [("svc", 1, 0)] 59 =
      (.allowed, [("svc", 2, 0)]) ∧
    cleanupSweep [("svc", 2, 0)] 61 60 = [] ∧ 61 - 59 < 60 := by
  refine ⟨by decide, by decide, by decide, by decide⟩

/-- C6 (amended): the sweep retains exactly the entries whose stored
window-start timestamp is younger than `window`; since an allowed request
inside the current window does not refresh that timestamp, an entry can be
evicted even though its caller made a request within the last `window` (the
concrete conjuncts exhibit this at sweep time 61 after a request at 59). -/
theorem cleanupSweep_uses_window_start :
    (∀ (storage : List (String × Nat × Nat)) (now window : Nat)
      (e : String × Nat × Nat),
      e ∈ cleanupSweep storage now window ↔ e ∈ storage ∧ now - e.2.2 < window) ∧
    (call ⟨"sec", 100, 60, "svc"⟩ (.value "sec") [("svc", 1, 0)] 59).1 = .allowed ∧
    cleanupSweep (call ⟨"sec", 100, 60, "svc"⟩ (.value "sec")
      [("svc", 1, 0)] 59).2 61 60 = [] := by
  refine ⟨?_, by decide, by decide⟩
  intro storage now window e
  simp [cleanupSweep, List.mem_filter]

/-! ### Claim C7 -/

/-- C7 (counterexample): after a first successful `init`, a second call
leaves the stored signing identity unchanged but returns
`InitializationError`, not success. -/
theorem init_second_call_returns_error :
    (init (some ⟨"key", "AB"⟩) ⟨false, none⟩).1 = .ok () ∧
    (init (some ⟨"key", "AB"⟩) (init (some ⟨"key", "AB"⟩) ⟨false, none⟩).2).1 =
      .error .initializationError ∧
    (init (some ⟨"key", "AB"⟩) (init (some ⟨"key", "AB"⟩) ⟨false, none⟩).2).2 =
      (init (some ⟨"key", "AB"⟩) ⟨false, none⟩).2 :=
  ⟨rfl, rfl, rfl⟩

/-- C7 (amended): the first `init` call stores the loaded identity and
returns success; any later call (the `Once` having fired) is a no-op on the
stored identity but returns `InitializationError` rather than success. -/
theorem init_second_call_state_spec (s : CryptoService) (g : CryptoGlobals) :
    (g.once_done = false → init (some s) g = (.ok (), ⟨true, some s⟩)) ∧
    (∀ loadResult, g.once_done = true →
      init loadResult g = (.error .initializationError, g)) := by
  constructor
  · intro h
    simp [init, h]
  · intro loadResult h
    simp [init, h]

/-! ### Claim C8 -/

/-- Number of characters after the last `'.'` in a string. -/
def fracDigitCount (t : String) : Nat :=
  (t.data.reverse.takeWhile (fun c => c != '.')).length

theorem fracDigitCount_dot0 (a : String) : fracDigitCount (a ++ ".0") = 1 := by
  have h : (a ++ ".0").data = a.data ++ ['.', '0'] := String.data_append a ".0"
  simp [fracDigitCount, h, List.takeWhile_cons]

theorem char_digit_ne_dot (d : Nat) (h : d < 10) :
    (Char.ofNat (48 + d) != '.') = true := by
  interval_cases d <;> decide

theorem fracDigitCount_pad2 (a : String) (m : Nat) :
    fracDigitCount (a ++ "." ++ pad2 m) = 2 := by
  have h1 : (Char.ofNat (48 + m / 10 % 10) != '.') = true :=
    char_digit_ne_dot _ (by omega)
  have h2 : (Char.ofNat (48 + m % 10) != '.') = true :=
    char_digit_ne_dot _ (by omega)
  have hd : (a ++ "." ++ pad2 m).data =
      (a.data ++ ['.']) ++ [Char.ofNat (48 + m / 10 % 10), Char.ofNat (48 + m % 10)] := by
    rw [String.data_append, String.data_append]
    rfl
  simp [fracDigitCount, hd, List.takeWhile_cons, h1, h2]

/-- C8: every input accepted by the `f64` parse is formatted with a decimal
point and exactly one fractional digit when its fractional part is zero
(`den = 1`), two otherwise; with the spec's examples. -/
theorem format_for_json_decimal_places (s : String) (q : Rat)
    (h : parseF64 (rustTrim s) = some q) :
    ('.' ∈ (format_for_json s).data ∧
      fracDigitCount (format_for_json s) = if q.den = 1 then 1 else 2) ∧
    format_for_json "131" = "131.0" ∧
    format_for_json "0" = "0.0" ∧
    format_for_json "12.3" = "12.30" := by
  refine ⟨?_, by decide, by decide, by decide⟩
  have hf : format_for_json s = if q.den = 1 then fmtDec1Whole q else fmtDec2 q := by
    simp [format_for_json, h]
  by_cases hden : q.den = 1
  · rw [hf, if_pos hden, if_pos hden]
    constructor
    · simp [fmtDec1Whole, String.data_append]
    · exact fracDigitCount_dot0 _
  · rw [hf, if_neg hden, if_neg hden]
    constructor
    · simp only [fmtDec2]
      simp [String.data_append, pad2]
    · simp only [fmtDec2]
      exact fracDigitCount_pad2 _ _

/-- Witness for `format_for_json_decimal_places` at `"12.3"`. -/
theorem format_for_json_decimal_places_witness :
    (('.' ∈ (format_for_json "12.3").data ∧
      fracDigitCount (format_for_json "12.3") =
        if (mkRat 123 10).den = 1 then 1 else 2) ∧
      format_for_json "131" = "131.0" ∧
      format_for_json "0" = "0.0" ∧
      format_for_json "12.3" = "12.30") :=
  format_for_json_decimal_places "12.3" (mkRat 123 10) (by decide)

/-! ### Claim C10 -/

/-- C10: `clean_nulls` replaces a string-valued amount field (BilledAmount,
TaxedAmount, VATAmount, Amount, LoyaltyProgramAmount) by the bare number
obtained by `f64`-parsing the `format_for_json` text; concretely a supplied
`"12.30"` survives formatting as the two-decimal text `"12.30"` but is
replaced by the number `12.3`, which canonicalizes (and is therefore signed
and sent) as `12.3` — the trailing zero is lost. -/
theorem clean_nulls_amount_fields :
    (∀ (k s : String) (q : Rat) (kvs : List (String × Value)),
      is_lossless_number_field k = true →
      parseF64 (format_for_json s) = some q →
      clean_nulls (.obj ((k, .str s) :: kvs)) =
        .obj ((k, .floatNum q) ::
          cleanMembers (kvs.filter (fun kv => !kv.2.isNull)))) ∧
    clean_nulls (.obj [("Amount", .str "12.30")]) =
      .obj [("Amount", .floatNum (mkRat 123 10))] ∧
    canonize (.obj [("Amount", .floatNum (mkRat 123 10))]) = "\x7b\"Amount\":12.3\x7d" ∧
    format_for_json "12.30" = "12.30" := by
  have hgen : ∀ (k s : String) (q : Rat) (kvs : List (String × Value)),
      is_lossless_number_field k = true →
      parseF64 (format_for_json s) = some q →
      clean_nulls (.obj ((k, .str s) :: kvs)) =
        .obj ((k, .floatNum q) ::
          cleanMembers (kvs.filter (fun kv => !kv.2.isNull))) := by
    intro k s q kvs h1 h2
    simp [clean_nulls, List.filter_cons, Value.isNull, cleanMembers,
      losslessAsNumber, h1, h2]
  refine ⟨hgen, ?_, ?_, by decide⟩
  · have := hgen "Amount" "12.30" (mkRat 123 10) [] (by decide) (by decide)
    simpa [cleanMembers] using this
  · simp [canonize, canonMembers, canonObjVal, sortKvs, List.insertionSort,
      atomToString, Value.isNull]
    rfl

/-- Witness for `clean_nulls_amount_fields`'s general conjunct at the
`"Amount"`/`"12.30"` instance. -/
theorem clean_nulls_amount_fields_witness :
    clean_nulls (.obj [("Amount", .str "12.30")]) =
      .obj (("Amount", Value.floatNum (mkRat 123 10)) ::
        cleanMembers (([] : List (String × Value)).filter (fun kv => !kv.2.isNull))) :=
  clean_nulls_amount_fields.1 "Amount" "12.30" (mkRat 123 10) [] (by decide) (by decide)

/-- Witness for the amended C7 theorem at concrete states. -/
theorem init_second_call_state_spec_witness :
    init (some ⟨"key", "AB"⟩) ⟨false, none⟩ = (.ok (), ⟨true, some ⟨"key", "AB"⟩⟩) ∧
    init (some ⟨"key", "AB"⟩) ⟨true, some ⟨"key", "AB"⟩⟩ =
      (.error .initializationError, ⟨true, some ⟨"key", "AB"⟩⟩) :=
  ⟨(init_second_call_state_spec ⟨"key", "AB"⟩ ⟨false, none⟩).1 rfl,
   (init_second_call_state_spec ⟨"key", "AB"⟩ ⟨true, some ⟨"key", "AB"⟩⟩).2
     (some ⟨"key", "AB"⟩) rfl⟩

/-! ### The canonical value (for C2's idempotence)

`canonValue` maps a value to the value its canonical printing denotes when it
is read back as JSON (for string contents that need no escaping): null-valued
keys dropped and keys sorted in objects, null items dropped in arrays that
appear directly under an object key, kept elsewhere — exactly mirroring which
parts `canonize` drops and reorders. -/

mutual

def canonValue : Value → Value
  | .obj kvs => .obj (cvMembers ((sortKvs kvs).filter (fun kv => !kv.2.isNull)))
  | .arr es => .arr (cvItems es)
  | v => v
termination_by v => (sizeOf v, 0)
decreasing_by
  · apply Prod.Lex.left
    calc sizeOf ((sortKvs kvs).filter (fun kv => !kv.2.isNull))
        ≤ sizeOf (sortKvs kvs) := sizeOf_filter_le _ _
      _ = sizeOf kvs := sizeOf_sortKvs kvs
      _ < sizeOf (Value.obj kvs) := by simp only [Value.obj.sizeOf_spec]; omega
  · apply Prod.Lex.left
    simp only [Value.arr.sizeOf_spec]; omega

def cvMembers : List (String × Value) → List (String × Value)
  | [] => []
  | (k, v) :: rest => (k, cvObjVal v) :: cvMembers rest
termination_by l => (sizeOf l, 1)
decreasing_by
  · apply Prod.Lex.left
    simp only [List.cons.sizeOf_spec, Prod.mk.sizeOf_spec]
    omega
  · apply Prod.Lex.left
    simp only [List.cons.sizeOf_spec]
    omega

def cvObjVal : Value → Value
  | .obj kvs => canonValue (.obj kvs)
  | .arr es => .arr (cvItems (es.filter (fun e => !e.isNull)))
  | v => v
termination_by v => (sizeOf v, 1)
decreasing_by
  · exact Prod.Lex.right _ (by omega)
  · apply Prod.Lex.left
    calc sizeOf (es.filter (fun e => !e.isNull))
        ≤ sizeOf es := sizeOf_filter_le _ _
      _ < sizeOf (Value.arr es) := by simp only [Value.arr.sizeOf_spec]; omega

def cvItems : List Value → List Value
  | [] => []
  | e :: rest => cvArrElem e :: cvItems rest
termination_by l => (sizeOf l, 1)
decreasing_by
  · apply Prod.Lex.left
    simp only [List.cons.sizeOf_spec]
    omega
  · apply Prod.Lex.left
    simp only [List.cons.sizeOf_spec]
    omega

def cvArrElem : Value → Value
  | .obj kvs => canonValue (.obj kvs)
  | .arr es => .arr (cvItems es)
  | v => v
termination_by v => (sizeOf v, 1)
decreasing_by
  · exact Prod.Lex.right _ (by omega)
  · apply Prod.Lex.left
    simp only [Value.arr.sizeOf_spec]; omega

end

theorem cvMembers_eq_map :
    ∀ l : List (String × Value), cvMembers l = l.map (fun kv => (kv.1, cvObjVal kv.2)) := by
  intro l
  induction l with
  | nil => simp [cvMembers]
  | cons kv rest ih =>
    obtain ⟨k, v⟩ := kv
    simp [cvMembers, ih]

theorem cvItems_eq_map : ∀ l : List Value, cvItems l = l.map cvArrElem := by
  intro l
  induction l with
  | nil => simp [cvItems]
  | cons e rest ih => simp [cvItems, ih]

theorem cvObjVal_isNull (v : Value) : (cvObjVal v).isNull = v.isNull := by
  cases v <;> simp [cvObjVal, canonValue, Value.isNull]

theorem cvArrElem_isNull (v : Value) : (cvArrElem v).isNull = v.isNull := by
  cases v <;> simp [cvArrElem, canonValue, Value.isNull]

theorem canonMembers_cv (l : List (String × Value))
    (h : ∀ kv ∈ l, canonObjVal (cvObjVal kv.2) = canonObjVal kv.2) :
    canonMembers (cvMembers l) = canonMembers l := by
  induction l with
  | nil => simp [cvMembers]
  | cons kv rest ih =>
    obtain ⟨k, v⟩ := kv
    have hv : canonObjVal (cvObjVal v) = canonObjVal v := h (k, v) (by simp)
    have hrest : ∀ kv ∈ rest, canonObjVal (cvObjVal kv.2) = canonObjVal kv.2 :=
      fun kv hkv => h kv (List.mem_cons_of_mem _ hkv)
    cases rest with
    | nil => simp [cvMembers, canonMembers, hv]
    | cons kv₂ rest₂ =>
      obtain ⟨k₂, v₂⟩ := kv₂
      have ih' := ih hrest
      simp only [cvMembers, canonMembers] at ih' ⊢
      rw [hv, ih']

theorem canonItems_cv (l : List Value)
    (h : ∀ e ∈ l, canonArrElem (cvArrElem e) = canonArrElem e) :
    canonItems (cvItems l) = canonItems l := by
  induction l with
  | nil => simp [cvItems]
  | cons e rest ih =>
    have he : canonArrElem (cvArrElem e) = canonArrElem e := h e (by simp)
    have hrest : ∀ e ∈ rest, canonArrElem (cvArrElem e) = canonArrElem e :=
      fun e he' => h e (List.mem_cons_of_mem _ he')
    cases rest with
    | nil => simp [cvItems, canonItems, he]
    | cons e₂ rest₂ =>
      have ih' := ih hrest
      simp only [cvItems, canonItems] at ih' ⊢
      rw [he, ih']

theorem sorted_cvMembers {l : List (String × Value)} (h : l.Sorted keyLE) :
    (cvMembers l).Sorted keyLE := by
  rw [cvMembers_eq_map]
  exact List.pairwise_map.mpr h

theorem filter_cvMembers_of_nonNull {l : List (String × Value)}
    (h : ∀ kv ∈ l, kv.2.isNull = false) :
    (cvMembers l).filter (fun kv => !kv.2.isNull) = cvMembers l := by
  apply List.filter_eq_self.mpr
  intro kv hkv
  rw [cvMembers_eq_map] at hkv
  obtain ⟨kv₀, hkv₀, rfl⟩ := List.mem_map.mp hkv
  simp only [cvObjVal_isNull]
  simp [h kv₀ hkv₀]

theorem filter_cvItems_of_nonNull {l : List Value}
    (h : ∀ e ∈ l, e.isNull = false) :
    (cvItems l).filter (fun e => !e.isNull) = cvItems l := by
  apply List.filter_eq_self.mpr
  intro e he
  rw [cvItems_eq_map] at he
  obtain ⟨e₀, he₀, rfl⟩ := List.mem_map.mp he
  simp only [cvArrElem_isNull]
  simp [h e₀ he₀]

theorem canon_stable_aux :
    ∀ n : Nat, ∀ v : Value, sizeOf v ≤ n →
      canonize (canonValue v) = canonize v ∧
      canonObjVal (cvObjVal v) = canonObjVal v ∧
      canonArrElem (cvArrElem v) = canonArrElem v := by
  intro n
  induction n with
  | zero =>
    intro v hv
    exfalso
    cases v <;> simp at hv
  | succ n ih =>
    intro v hv
    cases v with
    | null => refine ⟨?_, ?_, ?_⟩ <;> simp [canonValue, cvObjVal, cvArrElem]
    | bool b => refine ⟨?_, ?_, ?_⟩ <;> simp [canonValue, cvObjVal, cvArrElem]
    | intNum m => refine ⟨?_, ?_, ?_⟩ <;> simp [canonValue, cvObjVal, cvArrElem]
    | floatNum q => refine ⟨?_, ?_, ?_⟩ <;> simp [canonValue, cvObjVal, cvArrElem]
    | str s => refine ⟨?_, ?_, ?_⟩ <;> simp [canonValue, cvObjVal, cvArrElem]
    | arr es =>
      have hes : ∀ e ∈ es, sizeOf e ≤ n := by
        intro e he
        have := sizeOf_mem_lt_arr he
        omega
      have hitems : canonItems (cvItems es) = canonItems es :=
        canonItems_cv es (fun e he => (ih e (hes e he)).2.2)
      have hfil : ∀ e ∈ es.filter (fun e => !e.isNull), sizeOf e ≤ n :=
        fun e he => hes e (List.mem_of_mem_filter he)
      have hitemsf : canonItems (cvItems (es.filter (fun e => !e.isNull))) =
          canonItems (es.filter (fun e => !e.isNull)) :=
        canonItems_cv _ (fun e he => (ih e (hfil e he)).2.2)
      have hfilself : (cvItems (es.filter (fun e => !e.isNull))).filter
          (fun e => !e.isNull) = cvItems (es.filter (fun e => !e.isNull)) := by
        apply filter_cvItems_of_nonNull
        intro e he
        have := List.of_mem_filter he
        simpa using this
      refine ⟨?_, ?_, ?_⟩
      · simp only [canonValue, canonize]
        rw [hitems]
      · simp only [cvObjVal, canonObjVal]
        rw [hfilself, hitemsf]
      · simp only [cvArrElem, canonArrElem, canonize]
        rw [hitems]
    | obj kvs =>
      have hsizes : ∀ kv ∈ (sortKvs kvs).filter (fun kv => !kv.2.isNull),
          sizeOf kv.2 ≤ n := by
        intro kv hkv
        have h1 : kv ∈ sortKvs kvs := List.mem_of_mem_filter hkv
        have h2 : kv ∈ kvs := (List.mem_insertionSort keyLE).mp h1
        have := sizeOf_snd_lt_obj h2
        omega
      have hK : canonMembers (cvMembers ((sortKvs kvs).filter (fun kv => !kv.2.isNull))) =
          canonMembers ((sortKvs kvs).filter (fun kv => !kv.2.isNull)) :=
        canonMembers_cv _ (fun kv hkv => (ih kv.2 (hsizes kv hkv)).2.1)
      have hsortK : ((sortKvs kvs).filter (fun kv => !kv.2.isNull)).Sorted keyLE :=
        (List.sorted_insertionSort keyLE kvs).filter _
      have hsorted2 : (cvMembers ((sortKvs kvs).filter (fun kv => !kv.2.isNull))).Sorted keyLE :=
        sorted_cvMembers hsortK
      have hsort_eq : sortKvs (cvMembers ((sortKvs kvs).filter (fun kv => !kv.2.isNull))) =
          cvMembers ((sortKvs kvs).filter (fun kv => !kv.2.isNull)) :=
        List.Sorted.insertionSort_eq hsorted2
      have hfilK : (cvMembers ((sortKvs kvs).filter (fun kv => !kv.2.isNull))).filter
          (fun kv => !kv.2.isNull) =
          cvMembers ((sortKvs kvs).filter (fun kv => !kv.2.isNull)) := by
        apply filter_cvMembers_of_nonNull
        intro kv hkv
        have := List.of_mem_filter hkv
        simpa using this
      have h1 : canonize (canonValue (.obj kvs)) = canonize (.obj kvs) := by
        simp only [canonValue, canonize, sortKvs] at *
        rw [hsort_eq, hfilK, hK]
      refine ⟨h1, ?_, ?_⟩
      · simp only [cvObjVal, canonValue, canonObjVal, canonize] at h1 ⊢
        exact h1
      · simp only [cvArrElem, canonValue, canonArrElem, canonize] at h1 ⊢
        exact h1

/-! ### A strict JSON parser (serde_json `from_str::<Value>`), used to state
C2's "parse the canonical output back".  Character escapes are decoded as in
serde_json; `\uXXXX` for surrogate halves (and therefore astral characters,
which serde encodes as surrogate pairs) is outside the model. -/

def isJsonWs (c : Char) : Bool := c = ' ' || c = '\t' || c = '\n' || c = '\r'

def skipWs (cs : List Char) : List Char := cs.dropWhile isJsonWs

def hexVal (c : Char) : Option Nat :=
  if '0' ≤ c ∧ c ≤ '9' then some (c.toNat - 48)
  else if 'a' ≤ c ∧ c ≤ 'f' then some (c.toNat - 87)
  else if 'A' ≤ c ∧ c ≤ 'F' then some (c.toNat - 55)
  else none

/-- Parse the body of a JSON string after the opening quote, returning the
decoded characters and the input after the closing quote. -/
def parseStringBody : List Char → Option (List Char × List Char)
  | [] => none
  | '"' :: rest => some ([], rest)
  | '\\' :: 'u' :: a :: b :: c :: d :: rest => do
    let ha ← hexVal a
    let hb ← hexVal b
    let hc ← hexVal c
    let hd ← hexVal d
    let code := ((ha * 16 + hb) * 16 + hc) * 16 + hd
    if code < 55296 || (57344 ≤ code && code ≤ 65535) then do
      let (cs, r) ← parseStringBody rest
      some (Char.ofNat code :: cs, r)
    else none
  | '\\' :: e :: rest =>
    (match
      (if e = '"' then some '"'
       else if e = '\\' then some '\\'
       else if e = '/' then some '/'
       else if e = 'b' then some (Char.ofNat 8)
       else if e = 'f' then some (Char.ofNat 12)
       else if e = 'n' then some '\n'
       else if e = 'r' then some '\r'
       else if e = 't' then some '\t'
       else none) with
    | none => none
    | some c => do
      let (cs, r) ← parseStringBody rest
      some (c :: cs, r))
  | c :: rest =>
    if c.toNat < 32 then none
    else do
      let (cs, r) ← parseStringBody rest
      some (c :: cs, r)

/-- Exact rational value of a JSON number literal `[-] ip [. fracDs] [e exp]`. -/
def ratOfParts (neg : Bool) (ip fracDs : List Char) (e : Int) : Rat :=
  let mag : Int := (digitsToNat ip : Int) * (10 : Int) ^ fracDs.length +
    (digitsToNat fracDs : Int)
  let base : Int := if neg then -mag else mag
  if 0 ≤ e then mkRat (base * (10 : Int) ^ e.toNat) (10 ^ fracDs.length)
  else mkRat base (10 ^ fracDs.length * 10 ^ (-e).toNat)

/-- Parse the exponent tail after `e`/`E`. -/
def parseExpTail (neg : Bool) (ip fracDs : List Char) (rest : List Char) :
    Option (Value × List Char) :=
  let es : Bool × List Char :=
    match rest with
    | '+' :: r => (false, r)
    | '-' :: r => (true, r)
    | r => (false, r)
  let (eds, rest') := splitDigits es.2
  if eds.isEmpty then none
  else
    let e : Int := if es.1 then -(digitsToNat eds : Int) else (digitsToNat eds : Int)
    some (.floatNum (ratOfParts neg ip fracDs e), rest')

/-- Strict JSON number parsing (serde_json): optional minus, integer part
without leading zeros, optional fraction and exponent; integer literals
become `intNum`, fraction/exponent literals the exact rational `floatNum`. -/
def parseNumber (cs : List Char) : Option (Value × List Char) :=
  let sc : Bool × List Char :=
    match cs with
    | '-' :: rest => (true, rest)
    | rest => (false, rest)
  let (ip, cs₁) := splitDigits sc.2
  if ip.isEmpty then none
  else if 1 < ip.length && ip.headD '0' == '0' then none
  else
    let fc : Option (List Char) × List Char :=
      match cs₁ with
      | '.' :: rest =>
        let (ds, rest') := splitDigits rest
        (some ds, rest')
      | rest => (none, rest)
    match fc.1 with
    | some [] => none
    | _ =>
      let fracDs := fc.1.getD []
      match fc.2 with
      | 'e' :: rest => parseExpTail sc.1 ip fracDs rest
      | 'E' :: rest => parseExpTail sc.1 ip fracDs rest
      | rest =>
        if fc.1.isNone then
          some (.intNum (if sc.1 then -(digitsToNat ip : Int) else (digitsToNat ip : Int)), rest)
        else some (.floatNum (ratOfParts sc.1 ip fracDs 0), rest)

mutual

/-- Parse one JSON value (fuel-indexed recursive descent). -/
def parseValueF : Nat → List Char → Option (Value × List Char)
  | 0, _ => none
  | fuel + 1, cs =>
    match skipWs cs with
    | 'n' :: 'u' :: 'l' :: 'l' :: r => some (.null, r)
    | 't' :: 'r' :: 'u' :: 'e' :: r => some (.bool true, r)
    | 'f' :: 'a' :: 'l' :: 's' :: 'e' :: r => some (.bool false, r)
    | '"' :: r =>
      match parseStringBody r with
      | some (s, r') => some (.str (String.mk s), r')
      | none => none
    | '{' :: r =>
      (match skipWs r with
       | '}' :: r' => some (.obj [], r')
       | _ =>
         match parseMembersF fuel r with
         | some (kvs, r') => some (.obj kvs, r')
         | none => none)
    | '[' :: r =>
      (match skipWs r with
       | ']' :: r' => some (.arr [], r')
       | _ =>
         match parseItemsF fuel r with
         | some (es, r') => some (.arr es, r')
         | none => none)
    | cs' => parseNumber cs'

/-- Parse `"key": value (, ...)* }` object members. -/
def parseMembersF : Nat → List Char → Option (List (String × Value) × List Char)
  | 0, _ => none
  | fuel + 1, cs =>
    match skipWs cs with
    | '"' :: r =>
      (match parseStringBody r with
       | none => none
       | some (k, r₁) =>
         match skipWs r₁ with
         | ':' :: r₂ =>
           (match parseValueF fuel r₂ with
            | none => none
            | some (v, r₃) =>
              match skipWs r₃ with
              | ',' :: r₄ =>
                (match parseMembersF fuel r₄ with
                 | none => none
                 | some (kvs, r₅) => some ((String.mk k, v) :: kvs, r₅))
              | '}' :: r₄ => some ([(String.mk k, v)], r₄)
              | _ => none)
         | _ => none)
    | _ => none

/-- Parse `value (, ...)* ]` array items. -/
def parseItemsF : Nat → List Char → Option (List Value × List Char)
  | 0, _ => none
  | fuel + 1, cs =>
    match parseValueF fuel cs with
    | none => none
    | some (v, r) =>
      match skipWs r with
      | ',' :: r₂ =>
        (match parseItemsF fuel r₂ with
         | none => none
         | some (es, r₃) => some (v :: es, r₃))
      | ']' :: r₂ => some ([v], r₂)
      | _ => none

end

/-- serde_json `from_str::<Value>`: parse one JSON value, then require only
whitespace to follow. -/
def parseJson (s : String) : Option Value :=
  match parseValueF (s.length + 1) s.data with
  | some (v, rest) => if (skipWs rest).isEmpty then some v else none
  | none => none

/-- Canonicalization is unchanged by passing to the canonical value: the
value a canonical output denotes re-canonicalizes to the same string. -/
theorem canonize_canonValue (v : Value) : canonize (canonValue v) = canonize v :=
  (canon_stable_aux (sizeOf v) v le_rfl).1

/-- Key-order independence of `canonize_json` on duplicate-free objects. -/
theorem canonize_obj_perm {l₁ l₂ : List (String × Value)} (hp : l₁.Perm l₂)
    (h : (l₁.map Prod.fst).Nodup) : canonize (.obj l₁) = canonize (.obj l₂) := by
  simp only [canonize]
  rw [sortKvs_eq_of_perm hp h]

/-! ### Claim C2 -/

/-- C2 (counterexample): idempotence on the canonicalizer's own output fails
because string contents are emitted unescaped.  For `{"a": "p\bq"}` (with a
literal backslash before `b`) the canonical output is `{"a":"p\bq"}`; a JSON
parse of that output reads `\b` as the backspace escape, and
re-canonicalizing the parsed value yields a different string. -/
theorem canonize_not_idempotent_on_escapes :
    (parseJson (canonize (.obj [("a", .str "p\\bq")]))).isSome = true ∧
    (parseJson (canonize (.obj [("a", .str "p\\bq")]))).map canonize ≠
      some (canonize (.obj [("a", .str "p\\bq")])) := by
  have h : canonize (.obj [("a", .str "p\\bq")]) = "\x7b\"a\":\"p\\bq\"\x7d" := by
    simp [canonize, canonMembers, canonObjVal, sortKvs, List.insertionSort,
      atomToString, Value.isNull]
  have hp : parseJson "\x7b\"a\":\"p\\bq\"\x7d" = some (.obj [("a", .str "p\x08q")]) := rfl
  have h2 : canonize (.obj [("a", .str "p\x08q")]) = "\x7b\"a\":\"p\x08q\"\x7d" := by
    simp [canonize, canonMembers, canonObjVal, sortKvs, List.insertionSort,
      atomToString, Value.isNull]
  rw [h, hp]
  refine ⟨rfl, ?_⟩
  rw [Option.map_some']
  rw [h2]
  intro hcontra
  have := Option.some.inj hcontra
  revert this
  decide

/-- C2 (amended): canonicalization is key-order independent — two objects
with the same members (in any order) and duplicate-free keys produce the same
string — and is idempotent at the value level: re-canonicalizing the
canonical value (the null-stripped, key-sorted value a canonical output
denotes) reproduces the output.  Idempotence through an actual re-parse of
the output text holds only when string contents need no JSON escaping (see
the counterexample); on the spec's escape-free example the parse round trip
reproduces the canonical string exactly. -/
theorem canonize_deterministic_amended :
    (∀ l₁ l₂ : List (String × Value), l₁.Perm l₂ → (l₁.map Prod.fst).Nodup →
      canonize (.obj l₁) = canonize (.obj l₂)) ∧
    (∀ v : Value, canonize (canonValue v) = canonize v) ∧
    (parseJson "\x7b\"a\":1,\"c\":\x7b\"e\":2\x7d\x7d").map canonize =
      some "\x7b\"a\":1,\"c\":\x7b\"e\":2\x7d\x7d" := by
  refine ⟨fun l₁ l₂ hp h => canonize_obj_perm hp h, canonize_canonValue, ?_⟩
  have hp : parseJson "\x7b\"a\":1,\"c\":\x7b\"e\":2\x7d\x7d" =
      some (.obj [("a", .intNum 1), ("c", .obj [("e", .intNum 2)])]) := rfl
  rw [hp, Option.map_some']
  have h : canonize (.obj [("a", .intNum 1), ("c", .obj [("e", .intNum 2)])]) =
      "\x7b\"a\":1,\"c\":\x7b\"e\":2\x7d\x7d" := by
    simp [canonize, canonMembers, canonObjVal, sortKvs, List.insertionSort,
      List.orderedInsert, keyLE, charListLT, atomToString, Value.isNull]
    rfl
  rw [h]

/-- Witness for `canonize_deterministic_amended`'s key-order-independence
conjunct at a concrete pair of permuted objects. -/
theorem canonize_deterministic_amended_witness :
    canonize (.obj [("b", .intNum 2), ("a", .intNum 1)]) =
      canonize (.obj [("a", .intNum 1), ("b", .intNum 2)]) :=
  canonize_deterministic_amended.1 _ _ (List.Perm.swap _ _ _) (by decide)

/-! ### Claim C5 -/

theorem lookupEntry_setEntry_self (st : List (String × Nat × Nat)) (k : String)
    (v : Nat × Nat) : lookupEntry (setEntry st k v) k = some v := by
  induction st with
  | nil => simp [setEntry, lookupEntry]
  | cons e rest ih =>
    by_cases h : e.1 = k
    · simp [setEntry, h, lookupEntry]
    · simp [setEntry, h, lookupEntry, ih]

/-- `n` consecutive requests carrying the correct key, all at time `t`. -/
def callN (cfg : ServiceAuthConfig) (t : Nat) :
    Nat → List (String × Nat × Nat) → List (String × Nat × Nat)
  | 0, st => st
  | n + 1, st => (call cfg (.value cfg.service_key) (callN cfg t n st) t).2

theorem callN_inv (cfg : ServiceAuthConfig) (t : Nat)
    (st₀ : List (String × Nat × Nat))
    (h₀ : lookupEntry st₀ cfg.service_name = none) (hw : 1 ≤ cfg.window) :
    ∀ k, k ≤ cfg.max_requests →
      lookupEntry (callN cfg t k st₀) cfg.service_name =
        (if k = 0 then none else some (k, t)) := by
  intro k
  induction k with
  | zero => intro _; simpa [callN] using h₀
  | succ n ih =>
    intro hle
    have hn : lookupEntry (callN cfg t n st₀) cfg.service_name =
        (if n = 0 then none else some (n, t)) := ih (by omega)
    have hr : ¬ (t - t ≥ cfg.window) := by omega
    have hw0 : ¬ (cfg.window = 0) := by omega
    have hmax : ¬ (n ≥ cfg.max_requests) := by omega
    have hmax0 : ¬ (0 ≥ cfg.max_requests) := by omega
    simp only [callN, call]
    rw [if_neg (by simp)]
    by_cases h0 : n = 0
    · rw [h0] at hn
      simp [hn, hr, hw0, hmax0, lookupEntry_setEntry_self, h0]
    · rw [if_neg h0] at hn
      simp [hn, hr, hw0, hmax, lookupEntry_setEntry_self]

/-- C5: the auth filter's decision order and rate limiting.  Conjuncts:
(1) missing header → `401 Unauthorized`; (2) undecodable header value →
`400 BadRequest`; (3) wrong secret → `403 Forbidden`; (4) once at least
`window` has elapsed since the stored window start, the counter is reset to
`0` with window start `now`, and the request is counted and allowed;
(5) inside the window with `count ≥ maxRequests` → `429 TooManyRequests`;
(6) inside the window under the limit → increment and pass through;
(7) from a fresh identity, each of the first `maxRequests` requests in a
window is allowed, the `(maxRequests+1)`-th inside the window is rejected,
and it succeeds once `window` has elapsed. -/
theorem service_auth_filter_spec (cfg : ServiceAuthConfig) :
    (∀ st now, call cfg .missing st now = (.unauthorized, st)) ∧
    (∀ st now, call cfg .notDecodable st now = (.badRequest, st)) ∧
    (∀ st now s, s ≠ cfg.service_key → call cfg (.value s) st now = (.forbidden, st)) ∧
    (∀ st now c ts, 1 ≤ cfg.max_requests →
      lookupEntry st cfg.service_name = some (c, ts) → cfg.window ≤ now - ts →
      call cfg (.value cfg.service_key) st now =
        (.allowed, setEntry st cfg.service_name (1, now))) ∧
    (∀ st now c ts, lookupEntry st cfg.service_name = some (c, ts) →
      now - ts < cfg.window → cfg.max_requests ≤ c →
      call cfg (.value cfg.service_key) st now =
        (.tooManyRequests, setEntry st cfg.service_name (c, ts))) ∧
    (∀ st now c ts, lookupEntry st cfg.service_name = some (c, ts) →
      now - ts < cfg.window → c < cfg.max_requests →
      call cfg (.value cfg.service_key) st now =
        (.allowed, setEntry st cfg.service_name (c + 1, ts))) ∧
    (∀ st₀ t, lookupEntry st₀ cfg.service_name = none → 1 ≤ cfg.window →
      1 ≤ cfg.max_requests →
      (∀ k, k < cfg.max_requests →
        (call cfg (.value cfg.service_key) (callN cfg t k st₀) t).1 = .allowed) ∧
      (∀ t', t' - t < cfg.window →
        (call cfg (.value cfg.service_key)
          (callN cfg t cfg.max_requests st₀) t').1 = .tooManyRequests) ∧
      (call cfg (.value cfg.service_key)
        (callN cfg t cfg.max_requests st₀) (t + cfg.window)).1 = .allowed) := by
  refine ⟨fun st now => rfl, fun st now => rfl, ?_, ?_, ?_, ?_, ?_⟩
  · intro st now s h
    simp [call, h]
  · intro st now c ts hm hl hwin
    have hr : now - ts ≥ cfg.window := hwin
    have hmax : ¬ (0 ≥ cfg.max_requests) := by omega
    simp only [call]
    rw [if_neg (by simp)]
    simp [hl, hr, hmax]
  · intro st now c ts hl hwin hc
    have hr : ¬ (now - ts ≥ cfg.window) := by omega
    have hmax : c ≥ cfg.max_requests := hc
    simp only [call]
    rw [if_neg (by simp)]
    simp [hl, hr, hmax]
  · intro st now c ts hl hwin hc
    have hr : ¬ (now - ts ≥ cfg.window) := by omega
    have hmax : ¬ (c ≥ cfg.max_requests) := by omega
    simp only [call]
    rw [if_neg (by simp)]
    simp [hl, hr, hmax]
  · intro st₀ t h₀ hw hm
    have hr : ¬ (t - t ≥ cfg.window) := by omega
    have hw0 : ¬ (cfg.window = 0) := by omega
    refine ⟨?_, ?_, ?_⟩
    · intro k hk
      have hn := callN_inv cfg t st₀ h₀ hw k (by omega)
      have hmax : ¬ (k ≥ cfg.max_requests) := by omega
      have hmax0 : ¬ (0 ≥ cfg.max_requests) := by omega
      simp only [call]
      rw [if_neg (by simp)]
      by_cases h0 : k = 0
      · rw [h0] at hn
        simp [hn, h0, hr, hw0, hmax0]
      · rw [if_neg h0] at hn
        simp [hn, hr, hw0, hmax]
    · intro t' ht'
      have hn := callN_inv cfg t st₀ h₀ hw cfg.max_requests (by omega)
      rw [if_neg (by omega)] at hn
      have hr' : ¬ (t' - t ≥ cfg.window) := by omega
      have hmax : cfg.max_requests ≥ cfg.max_requests := le_refl _
      simp only [call]
      rw [if_neg (by simp)]
      simp [hn, hr', hmax]
    · have hn := callN_inv cfg t st₀ h₀ hw cfg.max_requests (by omega)
      rw [if_neg (by omega)] at hn
      have hr' : t + cfg.window - t ≥ cfg.window := by omega
      have hmax0 : ¬ (0 ≥ cfg.max_requests) := by omega
      simp only [call]
      rw [if_neg (by simp)]
      simp [hn, hr', hmax0]

/-- Witness for `service_auth_filter_spec` at a concrete configuration
(secret `"sec"`, limit 2, window 60). -/
theorem service_auth_filter_spec_witness :
    call ⟨"sec", 2, 60, "svc"⟩ .missing [] 0 = (.unauthorized, []) ∧
    call ⟨"sec", 2, 60, "svc"⟩ (.value "wrong") [] 0 = (.forbidden, []) ∧
    (call ⟨"sec", 2, 60, "svc"⟩ (.value "sec")
      (callN ⟨"sec", 2, 60, "svc"⟩ 0 2 []) 0).1 = .tooManyRequests ∧
    (call ⟨"sec", 2, 60, "svc"⟩ (.value "sec")
      (callN ⟨"sec", 2, 60, "svc"⟩ 0 2 []) (0 + 60)).1 = .allowed := by
  obtain ⟨h1, _, h3, _, _, _, h7⟩ := service_auth_filter_spec ⟨"sec", 2, 60, "svc"⟩
  obtain ⟨_, h7b, h7c⟩ := h7 [] 0 (by decide) (by decide) (by decide)
  exact ⟨h1 [] 0, h3 [] 0 "wrong" (by decide), h7b 0 (by decide), h7c⟩

end Plexo
